import Mathlib

/-!
Shallow embedding of `src/GPT_SoVITS/prepare_datasets/2-get-semantic-GPUs.py`.

The pipeline shards a work list across devices; per device a producer pushes
feature records followed by a single `none` sentinel onto a device queue, a
GPU process assembles batches of 256 and pushes result lists (or a sentinel)
onto a shared results queue, and a sink persists results until a global count
is reached.  Queues are modelled as the finite list of messages that will ever
be placed on them; a `get` on an exhausted queue is a permanent block and is
modelled as a distinguished `blocked` outcome.
-/

/-- `dataset_dir` constant from the script. -/
def dataset_dir : String := "./dataset"

/-- One work item: the four fields `[spk_name, wav_name, text, index_folder]`
appended to `todo` by the discovery loop. -/
structure WorkItem where
  spk_name : String
  wav_name : String
  text : String
  index_folder : String
deriving DecidableEq, Repr

/-- `os.path.join(dataset_dir, index_folder, wav_name)` as computed in
`producer` and `process_gpu`. -/
def wavPath (it : WorkItem) : String :=
  dataset_dir ++ "/" ++ it.index_folder ++ "/" ++ it.wav_name

/-- The tuple `(feat, feat_length, item)` put on a device queue by `producer`;
the feature tensor type is abstract (`φ`). -/
structure FeatureRecord (φ : Type) where
  feat : φ
  feat_length : Nat
  item : WorkItem
deriving DecidableEq, Repr

/-- The `for item in data: ... data_queue.put((feat, feat_length, item))` loop
of `producer`; `q` is the queue contents accumulated so far and `extract`
abstracts `load_and_preprocess_audio` (external). -/
def producerLoop (extract : String → φ × Nat) :
    List WorkItem → List (Option (FeatureRecord φ)) → List (Option (FeatureRecord φ))
  | [], q => q
  | it :: rest, q =>
      producerLoop extract rest
        (q ++ [some ⟨(extract (wavPath it)).1, (extract (wavPath it)).2, it⟩])

/-- `producer(data_queue, data)`: runs the loop, then `data_queue.put(None)`. -/
def producer (extract : String → φ × Nat) (data : List WorkItem)
    (q : List (Option (FeatureRecord φ))) : List (Option (FeatureRecord φ)) :=
  producerLoop extract data q ++ [none]

/-- Outcome of the inner `for _ in range(batch_size)` accumulation loop of
`process_gpu`: the loop either leaves a batch (full, or cut short by the
sentinel with a non-empty accumulator), hits the sentinel with an empty
accumulator (the `result_queue.put(None); return` path), or performs a `get`
on a queue that will never receive another message. -/
inductive GetOut (α : Type) where
  | gotBatch (batch : List α) (rest : List (Option α))
  | sentinelEmpty (rest : List (Option α))
  | blocked
deriving DecidableEq, Repr

/-- The inner accumulation loop of `process_gpu`, lines 85-94 of the script:
up to `n` remaining `get` calls, current queue contents, accumulator. -/
def getBatch : Nat → List (Option α) → List α → GetOut α
  | 0, q, batch => .gotBatch batch q
  | _ + 1, [], _ => .blocked
  | _ + 1, none :: q, batch =>
      if batch.isEmpty then .sentinelEmpty q else .gotBatch batch q
  | n + 1, some a :: q, batch => getBatch n q (batch ++ [a])

/-- A message on the shared results queue: a list of results, or `None`. -/
inductive ResMsg (ρ : Type) where
  | results (rs : List ρ)
  | sentinel
deriving DecidableEq, Repr

/-- How a run of `process_gpu` ends in the finite-queue model. -/
inductive GpuOutcome where
  | terminated
  | blocked
  | brokeLoop
  | outOfFuel
deriving DecidableEq, Repr

/-- Lines 101-112 of the script: one batch member `(feat, feat_length, item)`
is turned into `(wav_path, speech_token)`; `infer` abstracts the ONNX
session run plus flatten (external). -/
def runItem (infer : φ → Nat → τ) (r : FeatureRecord φ) : String × τ :=
  (wavPath r.item, infer r.feat r.feat_length)

/-- `process_gpu`'s `while True` loop over the device queue, with explicit
fuel bounding the number of outer iterations.  Returns the sequence of
messages pushed onto the shared results queue and how the run ends:
`terminated` is the `result_queue.put(None); return` path (sentinel read with
empty accumulator), `blocked` a `get` on a forever-empty queue, `brokeLoop`
the `if not batch: break` path followed by the trailing
`result_queue.put(None)` at line 115. -/
def process_gpu (infer : φ → Nat → τ) (batch_size : Nat) :
    Nat → List (Option (FeatureRecord φ)) → List (ResMsg (String × τ)) →
    List (ResMsg (String × τ)) × GpuOutcome
  | 0, _, out => (out, .outOfFuel)
  | fuel + 1, q, out =>
    match getBatch batch_size q [] with
    | .blocked => (out, .blocked)
    | .sentinelEmpty _ => (out ++ [.sentinel], .terminated)
    | .gotBatch batch rest =>
      if batch.isEmpty then (out ++ [.sentinel], .brokeLoop)
      else process_gpu infer batch_size fuel rest
        (out ++ [.results (batch.map (runItem infer))])

/-- Splitting a list into consecutive chunks of `b` (the last possibly
shorter); used only to state what `process_gpu` produces. -/
def chunk : Nat → List α → List (List α)
  | _, [] => []
  | 0, _ :: _ => []
  | b + 1, a :: l => ((a :: l).take (b + 1)) :: chunk (b + 1) (l.drop b)
termination_by _ l => l.length
decreasing_by simp [List.length_drop]; omega

/-- The persistence step of the sink's inner `for` loop: each
`(wav_path, speech_token)` pair is written to `wav_path + ".npy"`; the write
log records the saves in order. -/
def persistResults (log : List (String × τ)) (rs : List (String × τ)) :
    List (String × τ) :=
  log ++ rs.map (fun r => (r.1 ++ ".npy", r.2))

/-- `consumer(result_queue, total_items)` over the finite sequence of messages
the shared results queue will ever carry: returns `none` if the sink blocks
forever on `get`, otherwise `some (processed_items, write log, unread rest)`. -/
def consumer (total_items : Nat) :
    List (ResMsg (String × τ)) → Nat → List (String × τ) →
    Option (Nat × List (String × τ) × List (ResMsg (String × τ)))
  | msgs, processed_items, log =>
    if total_items ≤ processed_items then some (processed_items, log, msgs)
    else
      match msgs with
      | [] => none
      | .sentinel :: rest => consumer total_items rest processed_items log
      | .results rs :: rest =>
          consumer total_items rest (processed_items + rs.length)
            (persistResults log rs)

/-- Number of individual result items carried by a message list. -/
def itemCount : List (ResMsg ρ) → Nat
  | [] => 0
  | .results rs :: rest => rs.length + itemCount rest
  | .sentinel :: rest => itemCount rest

/-- All `(path, token)` pairs the sink persists from a message list, in order. -/
def persistedOf : List (ResMsg (String × τ)) → List (String × τ)
  | [] => []
  | .results rs :: rest => rs.map (fun r => (r.1 ++ ".npy", r.2)) ++ persistedOf rest
  | .sentinel :: rest => persistedOf rest

/-- Whether the final message of a list is a results list (not a sentinel). -/
def endsWithResults : List (ResMsg ρ) → Bool
  | [] => false
  | [.results _] => true
  | [.sentinel] => false
  | _ :: rest => endsWithResults rest

/-- The sharding step of `async_process`, lines 136-139:
`batch_size = len(data) // num_gpus`, the `num_gpus` slices
`data[i*batch_size:(i+1)*batch_size]`, and the remainder
`data[num_gpus*batch_size:]` extended onto the last shard. -/
def shardData (data : List α) (num_gpus : Nat) : List (List α) :=
  let batch_size := data.length / num_gpus
  let base := (List.range num_gpus).map fun i =>
    (data.drop (i * batch_size)).take batch_size
  if data.length % num_gpus = 0 then base
  else base.dropLast ++ [base.getLastD [] ++ data.drop (num_gpus * batch_size)]

/-- The sharding step including the division `len(data) // num_gpus`:
`num_gpus = 0` raises `ZeroDivisionError` (modelled as `none`, fatal);
otherwise the shards are computed. -/
def async_process_shards (data : List α) (num_gpus : Nat) :
    Option (List (List α)) :=
  if num_gpus = 0 then none else some (shardData data num_gpus)

/-- The fixed encoding trial sequence of the discovery loop, line 176. -/
def encodings : List String := ["utf-8", "gbk", "gb2312", "utf-16"]

/-- The `for encoding in encodings: try ... except UnicodeDecodeError`
fallback: `decode e` is `some lines` when reading under encoding `e`
succeeds; first success wins, `none` when every encoding fails. -/
def tryEncodings (decode : String → Option (List String)) :
    List String → Option (List String)
  | [] => none
  | e :: rest =>
    match decode e with
    | some lines => some lines
    | none => tryEncodings decode rest

/-- Python's `str.split` with a one-character separator: splitting an empty
string gives one empty field, and each separator occurrence starts a new
field. -/
def pySplit (sep : Char) : List Char → List (List Char)
  | [] => [[]]
  | c :: rest =>
    match pySplit sep rest with
    | [] => []
    | f :: fs => if c = sep then [] :: f :: fs else (c :: f) :: fs

/-- One line of a label file: `spk_name, wav_name, text = line.split("|")`
succeeds exactly when the split has three fields; otherwise the `except`
branch prints the line and skips it. -/
def parseLine (index_folder line : String) : Option WorkItem :=
  match (pySplit '|' line.data).map List.asString with
  | [spk_name, wav_name, text] => some ⟨spk_name, wav_name, text, index_folder⟩
  | _ => none

/-- The `for line in lines` loop appending parsed items to `todo`. -/
def collectLines (index_folder : String) :
    List String → List WorkItem → List WorkItem
  | [], todo => todo
  | line :: rest, todo =>
    match parseLine index_folder line with
    | some it => collectLines index_folder rest (todo ++ [it])
    | none => collectLines index_folder rest todo

/-- Processing of one label file: decode with the fallback chain; a file no
encoding can decode is skipped (diagnostic printed, run continues), otherwise
its lines are parsed into `todo`. -/
def processFile (decode : String → String → Option (List String))
    (index_folder file_path : String) (todo : List WorkItem) : List WorkItem :=
  match tryEncodings (decode file_path) encodings with
  | none => todo
  | some lines => collectLines index_folder lines todo

/-- The directory walk over `(index_folder, file_path)` pairs. -/
def discover (decode : String → String → Option (List String)) :
    List (String × String) → List WorkItem → List WorkItem
  | [], todo => todo
  | (folder, path) :: rest, todo =>
      discover decode rest (processFile decode folder path todo)

/-- Modelled from the spec: the persistence call (`np.save`, external to this
repository) writes the token sequence at the given path, overwriting any
existing artifact there silently ("Overwrites silently if rerun"). -/
def npSave (fs : String → Option τ) (path : String) (tok : τ) :
    String → Option τ :=
  fun p => if p = path then some tok else fs p

/-- Replaying a write log against a filesystem, earliest write first. -/
def applyLog (fs : String → Option τ) (log : List (String × τ)) :
    String → Option τ :=
  log.foldl (fun acc e => npSave acc e.1 e.2) fs

/-- The size a results message carries, if it is one. -/
def resultSize : ResMsg ρ → Option Nat
  | .results rs => some rs.length
  | .sentinel => none

/-- Bool test for the sentinel message. -/
def isSentinelMsg : ResMsg ρ → Bool
  | .results _ => false
  | .sentinel => true

/-- A concrete work item for witnesses. -/
def wi0 : WorkItem := ⟨"spk", "a.wav", "hi", "g"⟩

/-- A concrete feature record for witnesses. -/
def fr0 : FeatureRecord Nat := ⟨7, 3, wi0⟩

/-- A concrete inference function for witnesses. -/
def inf0 : Nat → Nat → Nat := fun a b => a + b

/-- Bool test that every results message in a list carries a non-empty batch
(true of everything a GPU process pushes, its batches being non-empty). -/
def allResultsNonempty : List (ResMsg ρ) → Bool
  | [] => true
  | .results rs :: rest => !rs.isEmpty && allResultsNonempty rest
  | .sentinel :: rest => allResultsNonempty rest

/-- A concrete message list for the C6 witness. -/
def msgs0 : List (ResMsg (String × Nat)) :=
  [.sentinel, .results [("a", 1), ("b", 2)], .results [("c", 3)]]

/-- A concrete decoder for the C7 witness: only `gbk` succeeds. -/
def dec10 : String → Option (List String) :=
  fun e => if e = "gbk" then some ["x|y|z"] else none

/-- A concrete decoder for the C7 witness: no encoding ever succeeds. -/
def decode0 : String → String → Option (List String) := fun _ _ => none

/-! ### Lemmas about the inner accumulation loop -/

/-- With at least `n` payload items at the front of the queue, the inner loop
takes exactly `n` of them and leaves the rest. -/
theorem getBatch_full (n : Nat) :
    ∀ (l : List α) (q : List (Option α)) (batch : List α), n ≤ l.length →
      getBatch n (l.map some ++ q) batch =
        .gotBatch (batch ++ l.take n) ((l.drop n).map some ++ q) := by
  induction n with
  | zero => intro l q batch _; simp [getBatch]
  | succ n ih =>
    intro l q batch h
    cases l with
    | nil => simp at h
    | cons a l =>
      simp only [List.map_cons, List.cons_append, getBatch, List.append_eq]
      rw [ih l q (batch ++ [a]) (by simpa using h)]
      simp

/-- With fewer than `n` payload items before the sentinel, the inner loop
drains them and hits the sentinel. -/
theorem getBatch_sentinel (l : List α) :
    ∀ (n : Nat) (q : List (Option α)) (batch : List α), l.length < n →
      getBatch n (l.map some ++ none :: q) batch =
        if (batch ++ l).isEmpty then .sentinelEmpty q else .gotBatch (batch ++ l) q := by
  induction l with
  | nil =>
    intro n q batch h
    cases n with
    | zero => simp at h
    | succ n =>
      simp only [List.map_nil, List.nil_append, getBatch, List.append_nil]
  | cons a l ih =>
    intro n q batch h
    cases n with
    | zero => simp at h
    | succ n =>
      simp only [List.map_cons, List.cons_append, getBatch, List.append_eq]
      rw [ih n q (batch ++ [a]) (by simpa using h)]
      simp

/-- A queue that never receives a sentinel and has fewer items than the loop
demands makes the loop block. -/
theorem getBatch_blocked (l : List α) :
    ∀ (n : Nat) (batch : List α), l.length < n →
      getBatch n (l.map some) batch = .blocked := by
  induction l with
  | nil =>
    intro n batch h
    cases n with
    | zero => simp at h
    | succ n => simp [getBatch]
  | cons a l ih =>
    intro n batch h
    cases n with
    | zero => simp at h
    | succ n =>
      simp only [List.map_cons, getBatch]
      exact ih n (batch ++ [a]) (by simpa using h)

/-- The inner loop never returns more items than it has remaining `get`
budget plus what was already accumulated. -/
theorem getBatch_length_le :
    ∀ (q : List (Option α)) (n : Nat) (batch b : List α) (rest : List (Option α)),
      getBatch n q batch = .gotBatch b rest → b.length ≤ batch.length + n := by
  intro q
  induction q with
  | nil =>
    intro n batch b rest h
    cases n with
    | zero => simp [getBatch] at h; simp [h.1.symm]
    | succ n => simp [getBatch] at h
  | cons o q ih =>
    intro n batch b rest h
    cases n with
    | zero => simp [getBatch] at h; simp [h.1.symm]
    | succ n =>
      cases o with
      | none =>
        simp only [getBatch] at h
        by_cases hb : batch.isEmpty
        · simp [hb] at h
        · simp [hb] at h
          simp [← h.1]
      | some a =>
        simp only [getBatch] at h
        have := ih n (batch ++ [a]) b rest h
        simp at this; omega

/-- With a non-empty accumulator the inner loop never hands back an empty
batch. -/
theorem getBatch_ne_nil_of_acc :
    ∀ (q : List (Option α)) (n : Nat) (batch b : List α) (rest : List (Option α)),
      batch ≠ [] → getBatch n q batch = .gotBatch b rest → b ≠ [] := by
  intro q
  induction q with
  | nil =>
    intro n batch b rest hb h
    cases n with
    | zero => simp [getBatch] at h; simp [← h.1, hb]
    | succ n => simp [getBatch] at h
  | cons o q ih =>
    intro n batch b rest hb h
    cases n with
    | zero => simp [getBatch] at h; simp [← h.1, hb]
    | succ n =>
      cases o with
      | none =>
        simp only [getBatch] at h
        rw [if_neg (by simpa [List.isEmpty_iff] using hb)] at h
        simp at h; simp [← h.1, hb]
      | some a =>
        simp only [getBatch] at h
        exact ih n (batch ++ [a]) b rest (by simp) h

/-- Starting from an empty accumulator with a positive budget, a batch the
inner loop hands back is never empty: the `if not batch` branch of
`process_gpu` is dead. -/
theorem getBatch_ne_nil (n : Nat) (q : List (Option α)) (b : List α)
    (rest : List (Option α)) (h : getBatch (n + 1) q [] = .gotBatch b rest) :
    b ≠ [] := by
  cases q with
  | nil => simp [getBatch] at h
  | cons o q =>
    cases o with
    | none => simp [getBatch] at h
    | some a =>
      simp only [getBatch] at h
      exact getBatch_ne_nil_of_acc q n [a] b rest (by simp) h

/-! ### Lemmas about `chunk` -/

/-- Unfolding `chunk` on a non-empty list. -/
theorem chunk_cons (b : Nat) (l : List α) (h : l ≠ []) :
    chunk (b + 1) l = l.take (b + 1) :: chunk (b + 1) (l.drop (b + 1)) := by
  cases l with
  | nil => exact absurd rfl h
  | cons a l => simp [chunk]

/-- A non-empty list no longer than the chunk size is a single chunk. -/
theorem chunk_small (b : Nat) (l : List α) (h : l ≠ []) (hl : l.length ≤ b + 1) :
    chunk (b + 1) l = [l] := by
  rw [chunk_cons b l h, List.take_of_length_le hl, List.drop_eq_nil_of_le hl]
  simp [chunk]

/-- Chunk sizes at 256: `S / 256` full chunks, then the `S % 256` remainder
chunk when the remainder is non-zero. -/
theorem chunk256_map_length (l : List α) :
    (chunk 256 l).map List.length =
      List.replicate (l.length / 256) 256 ++
        (if l.length % 256 = 0 then [] else [l.length % 256]) := by
  have key : ∀ (n : Nat) (l : List α), l.length ≤ n →
      (chunk 256 l).map List.length =
        List.replicate (l.length / 256) 256 ++
          (if l.length % 256 = 0 then [] else [l.length % 256]) := by
    intro n
    induction n with
    | zero =>
      intro l hl
      have : l = [] := List.eq_nil_of_length_eq_zero (Nat.le_zero.mp hl)
      subst this; simp [chunk]
    | succ n ih =>
      intro l hl
      rcases eq_or_ne l [] with rfl | hne
      · simp [chunk]
      · by_cases hbig : 256 ≤ l.length
        · have h256 : (256 : Nat) = 255 + 1 := rfl
          rw [h256, chunk_cons 255 l hne, ← h256]
          have hdl : (l.drop 256).length = l.length - 256 := by simp
          have ihd := ih (l.drop 256) (by simp; omega)
          simp only [List.map_cons, ihd, hdl, List.length_take]
          have h1 : min 256 l.length = 256 := by omega
          have h2 : l.length / 256 = (l.length - 256) / 256 + 1 := by omega
          have h3 : (l.length - 256) % 256 = l.length % 256 := by omega
          rw [h1, h2, h3, List.replicate_succ]
          simp
        · have h256 : (256 : Nat) = 255 + 1 := rfl
          rw [h256, chunk_small 255 l hne (by omega)]
          have h1 : l.length / 256 = 0 := by omega
          have h2 : l.length % 256 = l.length := by omega
          have h3 : l.length ≠ 0 := by
            intro h0
            exact hne (List.eq_nil_of_length_eq_zero h0)
          rw [h1, h2]
          simp [h3]
  exact key l.length l le_rfl


/-! ### One-step unfoldings of the outer `while True` loop -/

/-- One outer iteration that assembled a (non-empty) batch processes it and
loops. -/
theorem process_gpu_step_got (infer : φ → Nat → τ) (bs fuel : Nat)
    (q rest : List (Option (FeatureRecord φ))) (out : List (ResMsg (String × τ)))
    (b : List (FeatureRecord φ)) (h : getBatch bs q [] = .gotBatch b rest)
    (hb : b ≠ []) :
    process_gpu infer bs (fuel + 1) q out =
      process_gpu infer bs fuel rest (out ++ [.results (b.map (runItem infer))]) := by
  have hb' : b.isEmpty = false := by simpa [List.isEmpty_iff] using hb
  simp only [process_gpu, h, hb', Bool.false_eq_true, if_false]

/-- One outer iteration that read the sentinel with an empty accumulator
pushes one sentinel onto the results queue and returns. -/
theorem process_gpu_step_sent (infer : φ → Nat → τ) (bs fuel : Nat)
    (q rest : List (Option (FeatureRecord φ))) (out : List (ResMsg (String × τ)))
    (h : getBatch bs q [] = .sentinelEmpty rest) :
    process_gpu infer bs (fuel + 1) q out = (out ++ [.sentinel], .terminated) := by
  simp only [process_gpu, h]

/-- One outer iteration whose accumulation loop demands an item that will
never arrive blocks, having pushed nothing. -/
theorem process_gpu_step_blocked (infer : φ → Nat → τ) (bs fuel : Nat)
    (q : List (Option (FeatureRecord φ))) (out : List (ResMsg (String × τ)))
    (h : getBatch bs q [] = .blocked) :
    process_gpu infer bs (fuel + 1) q out = (out, .blocked) := by
  simp only [process_gpu, h]

/-! ### Characterization of a full `process_gpu` run over one shard -/

/-- What one GPU process does to the queue a producer filled with `shard` and
one trailing sentinel: it emits one results message per 256-chunk of the
shard, then either reads the sentinel with an empty accumulator and
terminates (shard size a multiple of 256) or blocks forever on the empty
queue (otherwise, the sentinel having been consumed to cut the partial batch
short). -/
theorem process_gpu_run (infer : φ → Nat → τ) :
    ∀ (fuel : Nat) (shard : List (FeatureRecord φ))
      (out : List (ResMsg (String × τ))),
      shard.length / 256 + 2 ≤ fuel →
      process_gpu infer 256 fuel (shard.map some ++ [none]) out =
        (out ++ (chunk 256 shard).map (fun c => .results (c.map (runItem infer)))
             ++ (if shard.length % 256 = 0 then [.sentinel] else []),
         if shard.length % 256 = 0 then .terminated else .blocked) := by
  intro fuel
  induction fuel with
  | zero => intro shard out h; omega
  | succ fuel ih =>
    intro shard out h
    rcases eq_or_ne shard [] with rfl | hne
    · rw [process_gpu_step_sent infer 256 fuel _ [] out
        (by rfl)]
      simp [chunk]
    · by_cases hbig : 256 ≤ shard.length
      · have hgb := getBatch_full 256 shard [none] [] hbig
        rw [List.nil_append] at hgb
        have htk : shard.take 256 ≠ [] := by
          have hlt : (shard.take 256).length = 256 := by
            rw [List.length_take]; omega
          intro h0
          rw [h0] at hlt
          simp at hlt
        rw [process_gpu_step_got infer 256 fuel _ _ out _ hgb htk]
        have hdlen : (shard.drop 256).length = shard.length - 256 :=
          List.length_drop 256 shard
        have hih := ih (shard.drop 256)
          (out ++ [.results ((shard.take 256).map (runItem infer))])
          (by rw [hdlen]; omega)
        rw [hih]
        have h256 : (256 : Nat) = 255 + 1 := rfl
        rw [h256, chunk_cons 255 shard hne, ← h256]
        have hmod : (shard.drop 256).length % 256 = shard.length % 256 := by
          rw [hdlen]; omega
        rw [hmod]
        simp
      · push_neg at hbig
        have hgb := getBatch_sentinel shard 256 [] [] hbig
        rw [List.nil_append] at hgb
        rw [if_neg (by simpa [List.isEmpty_iff] using hne)] at hgb
        rw [process_gpu_step_got infer 256 fuel _ _ out _ hgb hne]
        have hf : 1 ≤ fuel := by omega
        rcases Nat.exists_eq_add_of_le hf with ⟨f, rfl⟩
        rw [show (1 : Nat) + f = f + 1 by omega]
        rw [process_gpu_step_blocked infer 256 f [] _ (by rfl)]
        have h256 : (256 : Nat) = 255 + 1 := rfl
        rw [h256, chunk_small 255 shard hne (by omega), ← h256]
        have hm : shard.length % 256 ≠ 0 := by
          have : shard.length ≠ 0 := by
            intro h0
            exact hne (List.eq_nil_of_length_eq_zero h0)
          omega
        rw [if_neg hm, if_neg hm]
        simp


/-- C1: for a shard whose size is not a multiple of 256, after the consumer
reads the one sentinel to close the non-empty partial batch, its next
accumulation attempt blocks forever on the empty device queue: for every
fuel beyond the batches actually formed, the run ends `blocked` (never the
termination path) and the messages pushed to the shared results queue are
exactly the batch results — no further sentinel or result ever follows. -/
theorem c1_partial_batch_deadlock (infer : φ → Nat → τ)
    (shard : List (FeatureRecord φ)) (fuel : Nat)
    (hmod : shard.length % 256 ≠ 0) (hfuel : shard.length / 256 + 2 ≤ fuel) :
    process_gpu infer 256 fuel (shard.map some ++ [none]) [] =
      ((chunk 256 shard).map (fun c => ResMsg.results (c.map (runItem infer))),
        GpuOutcome.blocked) ∧
    ∀ m ∈ (process_gpu infer 256 fuel (shard.map some ++ [none]) []).1,
      m ≠ ResMsg.sentinel := by
  have hrun := process_gpu_run infer fuel shard [] hfuel
  rw [if_neg hmod, if_neg hmod] at hrun
  simp only [List.nil_append, List.append_nil] at hrun
  refine ⟨hrun, ?_⟩
  rw [hrun]
  intro m hm
  simp only [List.mem_map] at hm
  rcases hm with ⟨c, _, rfl⟩
  intro hcontra
  cases hcontra

set_option maxRecDepth 8000 in
/-- C1 witness: the spec's deadlock scenario, shard size 300. -/
theorem c1_partial_batch_deadlock_witness :
    ((List.replicate 300 fr0).length % 256 ≠ 0 ∧
      (List.replicate 300 fr0).length / 256 + 2 ≤ 4) ∧
    (process_gpu inf0 256 4 ((List.replicate 300 fr0).map some ++ [none]) [] =
      ((chunk 256 (List.replicate 300 fr0)).map
          (fun c => ResMsg.results (c.map (runItem inf0))),
        GpuOutcome.blocked) ∧
    ∀ m ∈ (process_gpu inf0 256 4 ((List.replicate 300 fr0).map some ++ [none]) []).1,
      m ≠ ResMsg.sentinel) :=
  ⟨⟨by decide, by decide⟩,
    c1_partial_batch_deadlock inf0 (List.replicate 300 fr0) 4 (by decide) (by decide)⟩

/-- C3: the batch-assembly step pulls at most 256 items per batch; a
sentinel read with a non-empty accumulator cuts the batch short and the
partial batch is processed before looping; a sentinel read with an empty
accumulator pushes one sentinel onto the shared results queue and returns
immediately; a full batch of 256 assembled without a sentinel is processed
and the loop continues on the remaining queue. -/
theorem c3_batch_assembly (infer : φ → Nat → τ) :
    (∀ (q rest : List (Option (FeatureRecord φ))) (b : List (FeatureRecord φ)),
        getBatch 256 q [] = .gotBatch b rest → b.length ≤ 256) ∧
    (∀ (items : List (FeatureRecord φ)) (q : List (Option (FeatureRecord φ)))
        (out : List (ResMsg (String × τ))) (fuel : Nat),
        items ≠ [] → items.length < 256 →
        process_gpu infer 256 (fuel + 1) (items.map some ++ none :: q) out =
          process_gpu infer 256 fuel q
            (out ++ [.results (items.map (runItem infer))])) ∧
    (∀ (q : List (Option (FeatureRecord φ))) (out : List (ResMsg (String × τ)))
        (fuel : Nat),
        process_gpu infer 256 (fuel + 1) (none :: q) out =
          (out ++ [.sentinel], .terminated)) ∧
    (∀ (items : List (FeatureRecord φ)) (q : List (Option (FeatureRecord φ)))
        (out : List (ResMsg (String × τ))) (fuel : Nat),
        items.length = 256 →
        process_gpu infer 256 (fuel + 1) (items.map some ++ q) out =
          process_gpu infer 256 fuel q
            (out ++ [.results (items.map (runItem infer))])) := by
  refine ⟨?_, ?_, ?_, ?_⟩
  · intro q rest b h
    have := getBatch_length_le q 256 [] b rest h
    simpa using this
  · intro items q out fuel hne hlt
    have hgb := getBatch_sentinel items 256 q [] hlt
    rw [List.nil_append, if_neg (by simpa [List.isEmpty_iff] using hne)] at hgb
    exact process_gpu_step_got infer 256 fuel _ _ out _ hgb hne
  · intro q out fuel
    exact process_gpu_step_sent infer 256 fuel _ q out (by rfl)
  · intro items q out fuel hlen
    have hgb := getBatch_full 256 items q [] (by omega)
    rw [List.nil_append, List.take_of_length_le (by omega),
      List.drop_eq_nil_of_le (by omega), List.map_nil, List.nil_append] at hgb
    have hne : items ≠ [] := by
      intro h0; rw [h0] at hlen; simp at hlen
    exact process_gpu_step_got infer 256 fuel _ _ out _ hgb hne

set_option maxRecDepth 8000 in
/-- C3 witness: each branch of the assembly step at a concrete input. -/
theorem c3_batch_assembly_witness :
    ((List.replicate 3 fr0).length ≤ 256) ∧
    (process_gpu inf0 256 1 ([fr0].map some ++ none :: []) [] =
      process_gpu inf0 256 0 [] [ResMsg.results ([fr0].map (runItem inf0))]) ∧
    (process_gpu inf0 256 1 (none :: []) [] =
      ([ResMsg.sentinel], GpuOutcome.terminated)) ∧
    (process_gpu inf0 256 1 ((List.replicate 256 fr0).map some ++ []) [] =
      process_gpu inf0 256 0 []
        [ResMsg.results ((List.replicate 256 fr0).map (runItem inf0))]) := by
  refine ⟨?_, ?_, ?_, ?_⟩
  · exact (c3_batch_assembly inf0).1 ((List.replicate 3 fr0).map some ++ [none]) []
      (List.replicate 3 fr0) (by decide)
  · have h := (c3_batch_assembly inf0).2.1 [fr0] [] [] 0 (by decide) (by decide)
    simpa using h
  · have h := (c3_batch_assembly inf0).2.2.1 [] [] 0
    simpa using h
  · have h := (c3_batch_assembly inf0).2.2.2 (List.replicate 256 fr0) [] [] 0
      (by decide)
    simpa using h

/-- C4: over a shard of size `S`, the consumer emits exactly `S / 256`
full-size batches; when `S % 256 > 0` one final batch of exactly `S % 256`
items follows (cut short by the sentinel) and the run then blocks; when
`S % 256 = 0` no partial batch is produced and the run takes the
sentinel-on-empty-batch termination path directly. -/
theorem c4_batching_boundary (infer : φ → Nat → τ)
    (shard : List (FeatureRecord φ)) (fuel : Nat)
    (hfuel : shard.length / 256 + 2 ≤ fuel) :
    (process_gpu infer 256 fuel (shard.map some ++ [none]) []).1.filterMap
        resultSize =
      List.replicate (shard.length / 256) 256 ++
        (if shard.length % 256 = 0 then [] else [shard.length % 256]) ∧
    (process_gpu infer 256 fuel (shard.map some ++ [none]) []).2 =
      (if shard.length % 256 = 0 then GpuOutcome.terminated
        else GpuOutcome.blocked) := by
  have hrun := process_gpu_run infer fuel shard [] hfuel
  rw [hrun]
  constructor
  · simp only [List.nil_append, List.filterMap_append]
    have h1 : ∀ (L : List (List (FeatureRecord φ))),
        (L.map (fun c => (ResMsg.results (c.map (runItem infer)) :
            ResMsg (String × τ)))).filterMap resultSize =
          L.map List.length := by
      intro L
      induction L with
      | nil => rfl
      | cons c L ihL =>
        simp only [List.map_cons, List.filterMap_cons, resultSize, ihL,
          List.length_map]
    rw [h1, chunk256_map_length]
    by_cases hm : shard.length % 256 = 0 <;> simp [hm, resultSize]
  · rfl

set_option maxRecDepth 8000 in
/-- C4 witness: shard size 300 yields one full batch and a 44-item batch. -/
theorem c4_batching_boundary_witness :
    ((List.replicate 300 fr0).length / 256 + 2 ≤ 4) ∧
    ((process_gpu inf0 256 4 ((List.replicate 300 fr0).map some ++ [none])
        []).1.filterMap resultSize =
      List.replicate ((List.replicate 300 fr0).length / 256) 256 ++
        (if (List.replicate 300 fr0).length % 256 = 0 then []
          else [(List.replicate 300 fr0).length % 256]) ∧
    (process_gpu inf0 256 4 ((List.replicate 300 fr0).map some ++ [none])
        []).2 =
      (if (List.replicate 300 fr0).length % 256 = 0 then GpuOutcome.terminated
        else GpuOutcome.blocked)) :=
  ⟨by decide, c4_batching_boundary inf0 (List.replicate 300 fr0) 4 (by decide)⟩

/-- C10: for the real batch size 256, the accumulated batch is non-empty
whenever the inner loop hands control back to the outer loop, so the
`if not batch: break` branch (and with it the trailing sentinel push after
the `while` loop) is unreachable, and the only sentinel ever pushed onto the
shared results queue is the one of the sentinel-with-empty-accumulator
return path. -/
theorem c10_unreachable_break (infer : φ → Nat → τ) :
    ∀ (fuel : Nat) (q : List (Option (FeatureRecord φ)))
      (out : List (ResMsg (String × τ))),
      (process_gpu infer 256 fuel q out).2 ≠ GpuOutcome.brokeLoop ∧
      (process_gpu infer 256 fuel q out).1.countP isSentinelMsg =
        out.countP isSentinelMsg +
          (if (process_gpu infer 256 fuel q out).2 = GpuOutcome.terminated
            then 1 else 0) := by
  intro fuel
  induction fuel with
  | zero =>
    intro q out
    constructor
    · intro h; cases h
    · rfl
  | succ fuel ih =>
    intro q out
    cases hgb : getBatch 256 q [] with
    | blocked =>
      rw [process_gpu_step_blocked infer 256 fuel q out hgb]
      constructor
      · intro h; cases h
      · rfl
    | sentinelEmpty rest =>
      rw [process_gpu_step_sent infer 256 fuel q rest out hgb]
      constructor
      · intro h; cases h
      · simp [List.countP_append, isSentinelMsg, List.countP_cons]
    | gotBatch b rest =>
      have hb : b ≠ [] := by
        have h256 : (256 : Nat) = 255 + 1 := rfl
        rw [h256] at hgb
        exact getBatch_ne_nil 255 q b rest hgb
      rw [process_gpu_step_got infer 256 fuel q rest out b hgb hb]
      have hout : (out ++ [ResMsg.results (b.map (runItem infer))]).countP
          isSentinelMsg = out.countP isSentinelMsg := by
        simp [List.countP_append, isSentinelMsg, List.countP_cons]
      rcases ih rest (out ++ [ResMsg.results (b.map (runItem infer))]) with
        ⟨ih1, ih2⟩
      exact ⟨ih1, by rw [ih2, hout]⟩

/-! ### The producer -/

/-- The producer loop appends one feature record per work item, in shard
order, to whatever is already on the queue. -/
theorem producerLoop_eq (extract : String → φ × Nat) :
    ∀ (data : List WorkItem) (q : List (Option (FeatureRecord φ))),
      producerLoop extract data q =
        q ++ data.map (fun it =>
          some ⟨(extract (wavPath it)).1, (extract (wavPath it)).2, it⟩) := by
  intro data
  induction data with
  | nil => intro q; simp [producerLoop]
  | cons it rest ih =>
    intro q
    rw [producerLoop, ih]
    simp

/-- C5: the producer pushes one feature record per work item onto its device
queue in exactly the shard's order, then exactly one sentinel, and
terminates; so the payload sequence its paired consumer can read is the
shard's items in order, followed by the single trailing sentinel. -/
theorem c5_producer_order (extract : String → φ × Nat)
    (shard : List WorkItem) :
    producer extract shard [] =
      shard.map (fun it =>
        some ⟨(extract (wavPath it)).1, (extract (wavPath it)).2, it⟩) ++
        [none] ∧
    ((producer extract shard []).filterMap id).map FeatureRecord.item =
      shard ∧
    (producer extract shard []).countP Option.isNone = 1 ∧
    (producer extract shard []).getLast? = some none := by
  have heq : producer extract shard [] =
      shard.map (fun it =>
        some ⟨(extract (wavPath it)).1, (extract (wavPath it)).2, it⟩) ++
        [none] := by
    rw [producer, producerLoop_eq]
    simp
  refine ⟨heq, ?_, ?_, ?_⟩
  · rw [heq]
    have h1 : ∀ (l : List WorkItem),
        (((l.map (fun it =>
            some (⟨(extract (wavPath it)).1, (extract (wavPath it)).2, it⟩ :
              FeatureRecord φ))) ++ [none]).filterMap id).map
          FeatureRecord.item = l := by
      intro l
      induction l with
      | nil => rfl
      | cons a l ihl => simpa using ihl
    exact h1 shard
  · rw [heq]
    simp only [List.countP_append]
    have h1 : ∀ (l : List WorkItem),
        (l.map (fun it =>
          some (⟨(extract (wavPath it)).1, (extract (wavPath it)).2, it⟩ :
            FeatureRecord φ))).countP Option.isNone = 0 := by
      intro l
      induction l with
      | nil => rfl
      | cons a l ihl => simp [List.countP_cons, ihl]
    rw [h1]
    rfl
  · rw [heq, List.getLast?_append]
    rfl

/-! ### The sharding step -/

/-- Concatenating the `k` consecutive slices of width `bs` recovers the
first `k * bs` elements. -/
theorem join_slices (data : List α) (bs : Nat) :
    ∀ (k : Nat),
      (((List.range k).map fun i => (data.drop (i * bs)).take bs)).flatten =
        data.take (k * bs) := by
  intro k
  induction k with
  | zero => simp
  | succ k ih =>
    rw [List.range_succ, List.map_append, List.flatten_append, ih]
    simp only [List.map_cons, List.map_nil, List.flatten_cons,
      List.flatten_nil, List.append_nil]
    rw [show (k + 1) * bs = k * bs + bs by ring, List.take_add]

/-- Every slice of the base sharding has width exactly `N / D`. -/
theorem slice_length (data : List α) (num_gpus i : Nat) (hi : i < num_gpus) :
    ((data.drop (i * (data.length / num_gpus))).take
      (data.length / num_gpus)).length = data.length / num_gpus := by
  have hkey := Nat.div_mul_le_self data.length num_gpus
  have h2 : num_gpus * (data.length / num_gpus) ≤ data.length := by
    calc num_gpus * (data.length / num_gpus)
        = data.length / num_gpus * num_gpus := by ring
      _ ≤ data.length := hkey
  have h3 : (i + 1) * (data.length / num_gpus) ≤ data.length :=
    le_trans (Nat.mul_le_mul_right _ (by omega)) h2
  have h4 : data.length / num_gpus + i * (data.length / num_gpus) ≤
      data.length := by
    calc data.length / num_gpus + i * (data.length / num_gpus)
        = (i + 1) * (data.length / num_gpus) := by ring
      _ ≤ data.length := h3
  rw [List.length_take, List.length_drop]
  exact Nat.min_eq_left (Nat.le_sub_of_add_le h4)

/-- C2: for any work list and any device count `D ≥ 1`, the `D` shards are a
partition of the original list — their concatenation is the original list in
order — every shard except the last has exactly `N / D` items, and the last
shard has `N / D + N % D` items. -/
theorem c2_shard_partition (data : List α) (num_gpus : Nat)
    (hd : 1 ≤ num_gpus) :
    (shardData data num_gpus).flatten = data ∧
    (shardData data num_gpus).length = num_gpus ∧
    (∀ s ∈ (shardData data num_gpus).dropLast,
        s.length = data.length / num_gpus) ∧
    ((shardData data num_gpus).getLastD []).length =
      data.length / num_gpus + data.length % num_gpus := by
  obtain ⟨k, rfl⟩ : ∃ k, num_gpus = k + 1 := ⟨num_gpus - 1, by omega⟩
  have hmoddiv := Nat.mod_add_div data.length (k + 1)
  by_cases hm : data.length % (k + 1) = 0
  · simp only [shardData]
    rw [if_pos hm]
    refine ⟨?_, ?_, ?_, ?_⟩
    · rw [join_slices data (data.length / (k + 1)) (k + 1),
        show (k + 1) * (data.length / (k + 1)) = data.length by omega,
        List.take_length]
    · simp
    · intro s hs
      have hs' := List.dropLast_subset _ hs
      rcases List.mem_map.mp hs' with ⟨i, hi, rfl⟩
      exact slice_length data (k + 1) i (List.mem_range.mp hi)
    · rw [List.range_succ, List.map_append, List.map_cons, List.map_nil,
        List.getLastD_concat]
      rw [slice_length data (k + 1) k (by omega), hm]
      rfl
  · simp only [shardData]
    rw [if_neg hm, List.range_succ, List.map_append, List.map_cons,
      List.map_nil, List.dropLast_concat, List.getLastD_concat]
    refine ⟨?_, ?_, ?_, ?_⟩
    · rw [List.flatten_append, List.flatten_cons, List.flatten_nil,
        List.append_nil, join_slices data (data.length / (k + 1)) k,
        ← List.append_assoc, ← List.take_add,
        show k * (data.length / (k + 1)) + data.length / (k + 1) =
          (k + 1) * (data.length / (k + 1)) by ring,
        List.take_append_drop]
    · simp
    · intro s hs
      rw [List.dropLast_concat] at hs
      rcases List.mem_map.mp hs with ⟨i, hi, rfl⟩
      exact slice_length data (k + 1) i
        (by have := List.mem_range.mp hi; omega)
    · rw [List.getLastD_concat, List.length_append,
        slice_length data (k + 1) k (by omega), List.length_drop]
      omega

/-- C2 witness: seven items over three devices: shards of 2, 2 and 3. -/
theorem c2_shard_partition_witness :
    (shardData [0, 1, 2, 3, 4, 5, 6] 3).flatten = [0, 1, 2, 3, 4, 5, 6] ∧
    (shardData [0, 1, 2, 3, 4, 5, 6] 3).length = 3 ∧
    (∀ s ∈ (shardData [0, 1, 2, 3, 4, 5, 6] 3).dropLast,
        s.length = ([0, 1, 2, 3, 4, 5, 6] : List Nat).length / 3) ∧
    ((shardData [0, 1, 2, 3, 4, 5, 6] 3).getLastD []).length =
      ([0, 1, 2, 3, 4, 5, 6] : List Nat).length / 3 +
        ([0, 1, 2, 3, 4, 5, 6] : List Nat).length % 3 :=
  c2_shard_partition [0, 1, 2, 3, 4, 5, 6] 3 (by decide)

/-- C8 counterexample: with one work item and two devices (devices
outnumbering items) the sharding step does not fail: it returns an empty
first shard and a last shard holding the single item. -/
theorem c8_counterexample :
    async_process_shards ([0] : List Nat) 2 = some [[], [0]] := by decide

/-- C8 (amended): zero devices is fatal at the sharding step (the division
`len(data) // num_gpus` raises `ZeroDivisionError`); devices outnumbering
the items is NOT fatal: the integer division yields width 0, so the first
`D - 1` shards are empty and the last shard receives the whole list, and the
run proceeds past sharding. -/
theorem c8_sharding_degeneracy (num_gpus : Nat) (data : List α)
    (hz : 0 < num_gpus) (hlt : data.length < num_gpus) :
    (∀ d : List α, async_process_shards d 0 = none) ∧
    async_process_shards data num_gpus =
      some (List.replicate (num_gpus - 1) [] ++ [data]) := by
  constructor
  · intro d; simp [async_process_shards]
  · obtain ⟨k, rfl⟩ : ∃ k, num_gpus = k + 1 := ⟨num_gpus - 1, by omega⟩
    rw [async_process_shards, if_neg (by omega)]
    have hbs : data.length / (k + 1) = 0 := Nat.div_eq_of_lt hlt
    simp only [shardData, hbs, Nat.mul_zero, List.drop_zero, List.take_zero,
      List.map_const', List.length_range, Nat.add_sub_cancel]
    rcases eq_or_ne data [] with rfl | hne
    · rw [if_pos (by simp), List.replicate_succ']
    · have hmod : data.length % (k + 1) = data.length :=
        Nat.mod_eq_of_lt hlt
      have hlen0 : data.length ≠ 0 := by
        intro h0; exact hne (List.eq_nil_of_length_eq_zero h0)
      rw [if_neg (by omega), List.replicate_succ', List.dropLast_concat,
        List.getLastD_concat]
      simp

/-- C8 amended-claim witness: one item, two devices. -/
theorem c8_sharding_degeneracy_witness :
    (0 < 2 ∧ ([0] : List Nat).length < 2) ∧
    ((∀ d : List Nat, async_process_shards d 0 = none) ∧
      async_process_shards ([0] : List Nat) 2 =
        some (List.replicate 1 [] ++ [[0]])) :=
  ⟨⟨by decide, by decide⟩, c8_sharding_degeneracy 2 [0] (by decide) (by decide)⟩


/-- `endsWithResults` only looks at the tail. -/
theorem endsWithResults_cons (m : ResMsg ρ) (rest : List (ResMsg ρ))
    (h : rest ≠ []) :
    endsWithResults (m :: rest) = endsWithResults rest := by
  cases rest with
  | nil => exact absurd rfl h
  | cons r rs => cases m <;> simp [endsWithResults]

/-- A message list ending in a non-empty results message carries at least
one item. -/
theorem itemCount_pos (msgs : List (ResMsg ρ))
    (hend : endsWithResults msgs = true)
    (hne : allResultsNonempty msgs = true) : itemCount msgs ≠ 0 := by
  induction msgs with
  | nil => simp [endsWithResults] at hend
  | cons m rest ih =>
    rcases eq_or_ne rest [] with rfl | hrest
    · cases m with
      | results rs =>
        simp only [allResultsNonempty, Bool.and_eq_true] at hne
        have : rs ≠ [] := by simpa [List.isEmpty_iff] using hne.1
        have : rs.length ≠ 0 := by
          intro h0; exact this (List.eq_nil_of_length_eq_zero h0)
        simp only [itemCount]
        omega
      | sentinel => simp [endsWithResults] at hend
    · rw [endsWithResults_cons m rest hrest] at hend
      have hne' : allResultsNonempty rest = true := by
        cases m with
        | results rs =>
          simp only [allResultsNonempty, Bool.and_eq_true] at hne
          exact hne.2
        | sentinel => simpa [allResultsNonempty] using hne
      have := ih hend hne'
      cases m with
      | results rs => simp [itemCount]; omega
      | sentinel => simpa [itemCount] using this

/-- The sink persists one record per item. -/
theorem persistedOf_length (msgs : List (ResMsg (String × τ))) :
    (persistedOf msgs).length = itemCount msgs := by
  induction msgs with
  | nil => rfl
  | cons m rest ih =>
    cases m with
    | results rs => simp [persistedOf, itemCount, ih]
    | sentinel => simpa [persistedOf, itemCount] using ih

/-- The sink's `while` guard: once the count is met it returns at once,
leaving the rest of the queue unread. -/
theorem consumer_stop (N p : Nat) (msgs : List (ResMsg (String × τ)))
    (log : List (String × τ)) (h : N ≤ p) :
    consumer N msgs p log = some (p, log, msgs) := by
  rw [consumer.eq_def]
  simp [h]

/-- A sentinel pulled while the count is short is ignored. -/
theorem consumer_sent (N p : Nat) (rest : List (ResMsg (String × τ)))
    (log : List (String × τ)) (h : p < N) :
    consumer N (.sentinel :: rest) p log = consumer N rest p log := by
  have h2 : ¬ N ≤ p := by omega
  rw [consumer.eq_def]
  simp [h2]

/-- A result list pulled while the count is short is persisted item by item,
each item incrementing the count. -/
theorem consumer_res (N p : Nat) (rs : List (String × τ))
    (rest : List (ResMsg (String × τ))) (log : List (String × τ))
    (h : p < N) :
    consumer N (.results rs :: rest) p log =
      consumer N rest (p + rs.length) (persistResults log rs) := by
  have h2 : ¬ N ≤ p := by omega
  rw [consumer.eq_def]
  simp [h2]

/-- Running the sink over a message list carrying exactly the missing number
of items (and ending in a results message): it stops the instant the count
is reached, skipping sentinels along the way, leaving any later messages
unread. -/
theorem consumer_go (N : Nat) :
    ∀ (msgs tail : List (ResMsg (String × τ))) (p : Nat)
      (log : List (String × τ)),
      p + itemCount msgs = N →
      endsWithResults msgs = true →
      allResultsNonempty msgs = true →
      consumer N (msgs ++ tail) p log =
        some (N, log ++ persistedOf msgs, tail) := by
  intro msgs
  induction msgs with
  | nil => intro tail p log _ hend _; simp [endsWithResults] at hend
  | cons m rest ih =>
    intro tail p log hcount hend hne
    have hic : itemCount (m :: rest) ≠ 0 := itemCount_pos _ hend hne
    have hp : p < N := by omega
    rw [List.cons_append]
    cases m with
    | sentinel =>
      have hrest : rest ≠ [] := by
        intro h0
        rw [h0] at hend
        simp [endsWithResults] at hend
      rw [consumer_sent N p _ log hp]
      rw [ih tail p log (by simpa [itemCount] using hcount)
        (by rwa [endsWithResults_cons _ _ hrest] at hend)
        (by simpa [allResultsNonempty] using hne)]
      rw [show persistedOf (ResMsg.sentinel :: rest) = persistedOf rest
        from rfl]
    | results rs =>
      rw [consumer_res N p rs _ log hp]
      rcases eq_or_ne rest [] with rfl | hrest
      · have hcount' : p + rs.length = N := by
          simp only [itemCount] at hcount
          omega
        rw [List.nil_append, consumer_stop N _ tail _ (by omega), hcount']
        rw [show persistedOf [ResMsg.results rs] =
          rs.map (fun r => (r.1 ++ ".npy", r.2)) from by simp [persistedOf]]
        rw [persistResults]
      · have hne' : allResultsNonempty rest = true := by
          simp only [allResultsNonempty, Bool.and_eq_true] at hne
          exact hne.2
        rw [ih tail (p + rs.length) (persistResults log rs)
          (by simp only [itemCount] at hcount; omega)
          (by rwa [endsWithResults_cons _ _ hrest] at hend) hne']
        rw [show persistedOf (ResMsg.results rs :: rest) =
          rs.map (fun r => (r.1 ++ ".npy", r.2)) ++ persistedOf rest
          from rfl]
        rw [persistResults, List.append_assoc]

/-- C6: the Result Sink starts at zero, skips every sentinel it pulls
without counting it, persists each `(target_path, token_sequence)` pair of
each result list at `target_path + ".npy"` incrementing the count once per
item, and returns the moment the count reaches the expected total `N` —
regardless of how many device sentinels are still unread — having persisted
exactly `N` records. -/
theorem c6_result_sink (N : Nat) (msgs extra : List (ResMsg (String × τ)))
    (p : Nat) (log : List (String × τ)) (rs : List (String × τ)) :
    (p < N → consumer N (ResMsg.sentinel :: msgs) p log =
      consumer N msgs p log) ∧
    (p < N → consumer N (ResMsg.results rs :: msgs) p log =
      consumer N msgs (p + rs.length)
        (log ++ rs.map (fun r => (r.1 ++ ".npy", r.2)))) ∧
    (itemCount msgs = N → endsWithResults msgs = true →
      allResultsNonempty msgs = true →
      consumer N (msgs ++ extra) 0 [] = some (N, persistedOf msgs, extra) ∧
      (persistedOf msgs).length = N) := by
  refine ⟨?_, ?_, ?_⟩
  · intro hp
    exact consumer_sent N p msgs log hp
  · intro hp
    rw [consumer_res N p rs msgs log hp]
    rw [show persistResults log rs =
      log ++ rs.map (fun r => (r.1 ++ ".npy", r.2)) from rfl]
  · intro hcount hend hne
    constructor
    · have := consumer_go N msgs extra 0 [] (by omega) hend hne
      simpa using this
    · rw [persistedOf_length, hcount]


/-- C6 witness: three items across two batches with an interleaved sentinel;
the sink stops at count 3 leaving a trailing sentinel unread. -/
theorem c6_result_sink_witness :
    (0 < 3 ∧ itemCount msgs0 = 3 ∧ endsWithResults msgs0 = true ∧
      allResultsNonempty msgs0 = true) ∧
    (consumer 3 (msgs0 ++ [ResMsg.sentinel]) 0 [] =
      some (3, persistedOf msgs0, [ResMsg.sentinel]) ∧
    (persistedOf msgs0).length = 3) :=
  ⟨⟨by decide, by decide, by decide, by decide⟩,
    (c6_result_sink 3 msgs0 [ResMsg.sentinel] 0 [] []).2.2
      (by decide) (by decide) (by decide)⟩

/-! ### Work-list discovery -/

/-- When every encoding fails to decode, the fallback chain reports failure. -/
theorem tryEncodings_all_none (d : String → Option (List String)) :
    ∀ (es : List String), (∀ e ∈ es, d e = none) →
      tryEncodings d es = none := by
  intro es
  induction es with
  | nil => intro _; rfl
  | cons e rest ih =>
    intro h
    have he := h e (by simp)
    simp only [tryEncodings, he]
    exact ih (fun e2 he2 => h e2 (by simp [he2]))

/-- A line whose split on `'|'` does not have exactly three fields fails to
parse. -/
theorem parseLine_fail (index_folder line : String)
    (h : (pySplit '|' line.data).length ≠ 3) :
    parseLine index_folder line = none := by
  revert h
  unfold parseLine
  generalize pySplit '|' line.data = fields
  intro h
  rcases fields with _ | ⟨a, _ | ⟨b, _ | ⟨c, _ | d⟩⟩⟩
  · rfl
  · rfl
  · rfl
  · simp at h
  · rfl

/-- C7: discovery tries the fixed encodings `utf-8, gbk, gb2312, utf-16` in
that order and uses the first that succeeds; a file no encoding can decode
is skipped and the walk continues with the remaining files; a label line
that does not split into exactly three `|`-separated fields is skipped and
the remaining lines are still processed. -/
theorem c7_encoding_fallback (decode : String → String → Option (List String))
    (dec1 : String → Option (List String)) :
    encodings = ["utf-8", "gbk", "gb2312", "utf-16"] ∧
    (∀ (pre post : List String) (e : String) (lines : List String),
        (∀ e2 ∈ pre, dec1 e2 = none) → dec1 e = some lines →
        tryEncodings dec1 (pre ++ e :: post) = some lines) ∧
    (∀ (folder path : String) (todo : List WorkItem)
        (rest : List (String × String)),
        (∀ e ∈ encodings, decode path e = none) →
        processFile decode folder path todo = todo ∧
        discover decode ((folder, path) :: rest) todo =
          discover decode rest todo) ∧
    (∀ (folder line : String) (rest : List String) (todo : List WorkItem),
        (pySplit '|' line.data).length ≠ 3 →
        collectLines folder (line :: rest) todo =
          collectLines folder rest todo) := by
  refine ⟨rfl, ?_, ?_, ?_⟩
  · intro pre
    induction pre with
    | nil =>
      intro post e lines _ he
      simp only [List.nil_append, tryEncodings, he]
    | cons p pre ih =>
      intro post e lines hpre he
      have hp := hpre p (by simp)
      simp only [List.cons_append, tryEncodings, hp]
      exact ih post e lines (fun e2 he2 => hpre e2 (by simp [he2])) he
  · intro folder path todo rest hall
    have hnone := tryEncodings_all_none (decode path) encodings hall
    have hfile : processFile decode folder path todo = todo := by
      simp only [processFile, hnone]
    refine ⟨hfile, ?_⟩
    simp only [discover, hfile]
  · intro folder line rest todo h
    simp only [collectLines, parseLine_fail folder line h]


/-- C7 witness: the fallback picks `gbk` after `utf-8` fails; an undecodable
file leaves the work list unchanged and the walk goes on; a two-field line
is skipped. -/
theorem c7_encoding_fallback_witness :
    ((∀ e2 ∈ ["utf-8"], dec10 e2 = none) ∧ dec10 "gbk" = some ["x|y|z"] ∧
      (∀ e ∈ encodings, decode0 "f.txt" e = none) ∧
      (pySplit '|' "a|b".data).length ≠ 3) ∧
    (encodings = ["utf-8", "gbk", "gb2312", "utf-16"]) ∧
    (tryEncodings dec10 (["utf-8"] ++ "gbk" :: ["gb2312", "utf-16"]) =
      some ["x|y|z"]) ∧
    (processFile decode0 "g" "f.txt" [wi0] = [wi0] ∧
      discover decode0 [("g", "f.txt")] [wi0] = discover decode0 [] [wi0]) ∧
    (collectLines "g" ["a|b"] [wi0] = collectLines "g" [] [wi0]) :=
  ⟨⟨by decide, by decide, fun e _ => rfl, by decide⟩,
    (c7_encoding_fallback decode0 dec10).1,
    (c7_encoding_fallback decode0 dec10).2.1 ["utf-8"] ["gb2312", "utf-16"]
      "gbk" ["x|y|z"] (by decide) (by decide),
    (c7_encoding_fallback decode0 dec10).2.2.1 "g" "f.txt" [wi0] []
      (fun e _ => rfl),
    (c7_encoding_fallback decode0 dec10).2.2.2 "g" "a|b" [] [wi0] (by decide)⟩

/-! ### Persistence paths and overwrite behaviour -/

/-- Replaying a log never touches a path the log does not contain. -/
theorem applyLog_not_mem (log : List (String × τ)) :
    ∀ (fs : String → Option τ) (p : String), p ∉ log.map Prod.fst →
      applyLog fs log p = fs p := by
  induction log with
  | nil => intro fs p _; rfl
  | cons e rest ih =>
    intro fs p hp
    simp only [List.map_cons, List.mem_cons] at hp
    push_neg at hp
    rw [show applyLog fs (e :: rest) = applyLog (npSave fs e.1 e.2) rest
      from rfl]
    rw [ih (npSave fs e.1 e.2) p hp.2]
    simp [npSave, hp.1]

/-- On a path the log writes, the replayed result does not depend on the
prior contents of the filesystem: the last write wins. -/
theorem applyLog_mem_indep (log : List (String × τ)) :
    ∀ (fs fs2 : String → Option τ) (p : String), p ∈ log.map Prod.fst →
      applyLog fs log p = applyLog fs2 log p := by
  induction log with
  | nil => intro fs fs2 p hp; simp at hp
  | cons e rest ih =>
    intro fs fs2 p hp
    rw [show applyLog fs (e :: rest) = applyLog (npSave fs e.1 e.2) rest
      from rfl]
    rw [show applyLog fs2 (e :: rest) = applyLog (npSave fs2 e.1 e.2) rest
      from rfl]
    by_cases hm : p ∈ rest.map Prod.fst
    · exact ih _ _ p hm
    · simp only [List.map_cons, List.mem_cons] at hp
      rcases hp with rfl | hp
      · rw [applyLog_not_mem rest _ e.1 hm, applyLog_not_mem rest _ e.1 hm]
        simp [npSave]
      · exact absurd hp hm

/-- C9: each persisted artifact sits at the source audio file's own path
with `".npy"` appended (adjacent to the source file); writing is a silent
overwrite — a second write to the same path replaces the first with no
failure, and replaying the same write log a second time leaves every path
with the same contents. -/
theorem c9_persist_path_overwrite {τ : Type} :
    (∀ (log rs : List (String × τ)) (e : String × τ),
        e ∈ persistResults log rs →
        e ∈ log ∨ ∃ r ∈ rs, e = (r.1 ++ ".npy", r.2)) ∧
    (∀ (log rs : List (String × τ)) (r : String × τ), r ∈ rs →
        (r.1 ++ ".npy", r.2) ∈ persistResults log rs) ∧
    (∀ (fs : String → Option τ) (path : String) (t1 t2 : τ) (p : String),
        npSave (npSave fs path t1) path t2 p = npSave fs path t2 p) ∧
    (∀ (fs : String → Option τ) (log : List (String × τ)) (p : String),
        applyLog (applyLog fs log) log p = applyLog fs log p) := by
  refine ⟨?_, ?_, ?_, ?_⟩
  · intro log rs e he
    rw [persistResults] at he
    rcases List.mem_append.mp he with h | h
    · exact Or.inl h
    · rcases List.mem_map.mp h with ⟨r, hr, rfl⟩
      exact Or.inr ⟨r, hr, rfl⟩
  · intro log rs r hr
    rw [persistResults]
    exact List.mem_append.mpr (Or.inr (List.mem_map.mpr ⟨r, hr, rfl⟩))
  · intro fs path t1 t2 p
    by_cases hp : p = path <;> simp [npSave, hp]
  · intro fs log p
    by_cases hm : p ∈ log.map Prod.fst
    · exact applyLog_mem_indep log _ fs p hm
    · rw [applyLog_not_mem log _ p hm]

/-- C9 witness: one record lands at `"w" ++ ".npy"`. -/
theorem c9_persist_path_overwrite_witness :
    ((("w.npy", (1 : Nat)) ∈ persistResults [] [("w", 1)]) ∧
      (("w", (1 : Nat)) ∈ [(("w" : String), (1 : Nat))])) ∧
    ((("w.npy", (1 : Nat)) ∈ ([] : List (String × Nat)) ∨
      ∃ r ∈ [(("w" : String), (1 : Nat))], ("w.npy", (1 : Nat)) =
        (r.1 ++ ".npy", r.2)) ∧
    (("w" ++ ".npy", (1 : Nat)) ∈ persistResults [] [("w", 1)])) :=
  ⟨⟨by decide, by decide⟩,
    (@c9_persist_path_overwrite Nat).1 [] [("w", 1)] ("w.npy", 1) (by decide),
    (@c9_persist_path_overwrite Nat).2.1 [] [("w", 1)] ("w", 1) (by decide)⟩
